import Mathlib

/-!
Verification of the probing engine of `cwisstable` (`src/cwisstable/probe.h`):
the probe-sequence generator (`CWISS_probe_seq_new` / `CWISS_probe_seq_offset` /
`CWISS_probe_seq_next`) and the first-non-full search (`CWISS_find_first_non_full`).

The probe sequence and search loop are embedded directly from `probe.h`.
The collaborators that `probe.h` uses but that live in other headers of the
repository (`ctrl.h`, `bits.h`, `capacity.h`: control-byte states, group
loads, bitmask primitives, the mirrored-tail control-array layout) are
modelled from the specification, as marked on each such definition.

Machine integers (`size_t`) are modelled as `Nat`.  All quantities that the
claims are about stay far below `2 ^ 64` (offsets are masked by `capacity`,
and the loop index is bounded by `capacity` in every bounded-iteration
statement), so `Nat` arithmetic agrees with `size_t` arithmetic on them.
The group width `CWISS_Group_kWidth` is a fixed build constant in the source
(8 or 16); here it is a parameter `kWidth` so the theorems cover both builds.
-/

namespace Cwisstable

/-- Modelled from the spec: a control byte (cwisstable's `CWISS_ctrl_t`,
declared in `ctrl.h`, which is outside `src/`) encodes exactly one of
Empty, Deleted, or Full with a 7-bit tag. -/
inductive CWISS_ctrl_t : Type where
  | Empty : CWISS_ctrl_t
  | Deleted : CWISS_ctrl_t
  | Full : Nat → CWISS_ctrl_t
deriving DecidableEq

/-- Modelled from the spec: the predicate selecting Empty or Deleted control
bytes (cwisstable's `CWISS_IsEmptyOrDeleted`, declared in `ctrl.h`). -/
def CWISS_IsEmptyOrDeleted : CWISS_ctrl_t → Bool
  | CWISS_ctrl_t.Full _ => false
  | _ => true

/-- The state for a probe sequence (`CWISS_probe_seq` in `probe.h`). -/
structure CWISS_probe_seq : Type where
  mask_ : Nat
  offset_ : Nat
  index_ : Nat
deriving DecidableEq

/-- Constructor `CWISS_probe_seq_new` from `probe.h`: `offset_ = hash & mask`, `index_ = 0`. -/
def CWISS_probe_seq_new (hash mask : Nat) : CWISS_probe_seq :=
  { mask_ := mask, offset_ := hash &&& mask, index_ := 0 }

/-- Accessor `CWISS_probe_seq_offset` from `probe.h`: the slot `i` indices ahead of
`self` within the bounds expressed by `mask`. -/
def CWISS_probe_seq_offset (self : CWISS_probe_seq) (i : Nat) : Nat :=
  (self.offset_ + i) &&& self.mask_

/-- Advance step `CWISS_probe_seq_next` from `probe.h`:
`index_ += kWidth; offset_ += index_; offset_ &= mask_`. -/
def CWISS_probe_seq_next (kWidth : Nat) (self : CWISS_probe_seq) : CWISS_probe_seq :=
  { mask_ := self.mask_
    offset_ := (self.offset_ + (self.index_ + kWidth)) &&& self.mask_
    index_ := self.index_ + kWidth }

/-- Modelled from the spec: `GroupMatcher.load` followed by
`matchEmptyOrDeleted` (cwisstable's `CWISS_Group_new` +
`CWISS_Group_MatchEmptyOrDeleted`, declared in `ctrl.h`, outside `src/`):
reads exactly `kWidth` consecutive control bytes starting at index `off` and
returns a `kWidth`-bit mask with a set bit at every position whose byte
denotes Empty or Deleted.  Bit `i` of the result corresponds to byte
`ctrl (off + i)`. -/
def CWISS_Group_MatchEmptyOrDeleted
    (kWidth : Nat) (ctrl : Nat → CWISS_ctrl_t) (off : Nat) : Nat :=
  match kWidth with
  | 0 => 0
  | k + 1 =>
      (if CWISS_IsEmptyOrDeleted (ctrl off) then 1 else 0) +
        2 * CWISS_Group_MatchEmptyOrDeleted k ctrl (off + 1)

/-- Modelled from the spec: `BitMask.lowestSetBit` (cwisstable's
`CWISS_BitMask_TrailingZeros`, declared in `bits.h`, outside `src/`): the
position of the lowest set bit of a `kWidth`-bit mask; unspecified (here:
`kWidth`) when the mask is empty. -/
def CWISS_BitMask_TrailingZeros (kWidth m : Nat) : Nat :=
  match kWidth with
  | 0 => 0
  | k + 1 => if m % 2 = 1 then 0 else CWISS_BitMask_TrailingZeros k (m / 2) + 1

/-- Modelled from the spec: `BitMask.highestSetBit` (cwisstable's
`CWISS_BitMask_HighestBitSet`, declared in `bits.h`, outside `src/`): the
position of the highest set bit of a `kWidth`-bit mask; unspecified (here:
`0`) when the mask is empty.  Used only by the debug-only exploration
policy. -/
def CWISS_BitMask_HighestBitSet (kWidth m : Nat) : Nat :=
  match kWidth with
  | 0 => 0
  | k + 1 => if m.testBit k then k else CWISS_BitMask_HighestBitSet k m

/-- The return value of `CWISS_find_first_non_full` (`CWISS_FindInfo` in
`probe.h`). -/
structure CWISS_FindInfo : Type where
  offset : Nat
  probe_length : Nat
deriving DecidableEq

/-- The `while (true)` loop of `CWISS_find_first_non_full` (release / `NDEBUG`
build), starting from an arbitrary sequence state.  The C loop can fail to
terminate when its precondition is violated, so the embedding carries an
explicit `fuel` counter and returns `none` when the fuel runs out; each unit
of fuel corresponds to one loop iteration (one group load). -/
def CWISS_find_first_non_full_loop
    (kWidth : Nat) (ctrl : Nat → CWISS_ctrl_t) (seq : CWISS_probe_seq) :
    Nat → Option CWISS_FindInfo
  | 0 => none
  | fuel + 1 =>
      let mask := CWISS_Group_MatchEmptyOrDeleted kWidth ctrl seq.offset_
      if mask ≠ 0 then
        some { offset := CWISS_probe_seq_offset seq (CWISS_BitMask_TrailingZeros kWidth mask)
               probe_length := seq.index_ }
      else
        CWISS_find_first_non_full_loop kWidth ctrl (CWISS_probe_seq_next kWidth seq) fuel

/-- Search `CWISS_find_first_non_full` from `probe.h` in its release (`NDEBUG`) form.
The seed derivation `CWISS_H1(hash, ctrl)` performed by `CWISS_probe` is an
external collaborator (the spec's HashSplitter); `hash` here is the derived
probe seed, and the theorems quantify over all of its values. -/
def CWISS_find_first_non_full
    (kWidth : Nat) (ctrl : Nat → CWISS_ctrl_t) (hash capacity fuel : Nat) :
    Option CWISS_FindInfo :=
  CWISS_find_first_non_full_loop kWidth ctrl (CWISS_probe_seq_new hash capacity) fuel

/-- Outcome of `CWISS_find_first_non_full` in a checked (non-`NDEBUG`) build:
either a found slot, or the `CWISS_DCHECK(seq.index_ <= capacity, "full
table!")` assertion fired. -/
inductive CWISS_FindResult : Type where
  | found : CWISS_FindInfo → CWISS_FindResult
  | fullTableCheckFailed : CWISS_FindResult
deriving DecidableEq

/-- The loop of `CWISS_find_first_non_full` in a checked (non-`NDEBUG`) build.
`backwards` is the value of the debug-only exploration policy
`!CWISS_is_small(capacity) && CWISS_ShouldInsertBackwards(hash, ctrl)`
(both collaborators are declared in `capacity.h` / `ctrl.h`, outside `src/`;
the spec leaves the policy's bit-selection heuristic unspecified, so it is a
parameter here); it is constant across iterations because `hash`, `ctrl` and
`capacity` are.  The `CWISS_DCHECK` after the advance becomes an explicit
`fullTableCheckFailed` outcome. -/
def CWISS_find_first_non_full_dbg_loop
    (kWidth : Nat) (ctrl : Nat → CWISS_ctrl_t) (capacity : Nat) (backwards : Bool)
    (seq : CWISS_probe_seq) : Nat → Option CWISS_FindResult
  | 0 => none
  | fuel + 1 =>
      let mask := CWISS_Group_MatchEmptyOrDeleted kWidth ctrl seq.offset_
      if mask ≠ 0 then
        if backwards then
          some (CWISS_FindResult.found
            { offset := CWISS_probe_seq_offset seq (CWISS_BitMask_HighestBitSet kWidth mask)
              probe_length := seq.index_ })
        else
          some (CWISS_FindResult.found
            { offset := CWISS_probe_seq_offset seq (CWISS_BitMask_TrailingZeros kWidth mask)
              probe_length := seq.index_ })
      else
        let seq' := CWISS_probe_seq_next kWidth seq
        if seq'.index_ ≤ capacity then
          CWISS_find_first_non_full_dbg_loop kWidth ctrl capacity backwards seq' fuel
        else
          some CWISS_FindResult.fullTableCheckFailed

/-- Search `CWISS_find_first_non_full` in a checked (non-`NDEBUG`) build. -/
def CWISS_find_first_non_full_dbg
    (kWidth : Nat) (ctrl : Nat → CWISS_ctrl_t) (hash capacity : Nat) (backwards : Bool)
    (fuel : Nat) : Option CWISS_FindResult :=
  CWISS_find_first_non_full_dbg_loop kWidth ctrl capacity backwards
    (CWISS_probe_seq_new hash capacity) fuel

/-- Modelled from the spec: the mirrored-tail layout of the control-byte
array (established by `capacity.h` / `ctrl.h`, outside `src/`).  §3 of the
spec: "The array's first `groupWidth−1` bytes are mirrored at its tail so a
group load starting near the end never reads out of bounds"; the array's
logical size is `capacity + groupWidth`, so the tail of `groupWidth − 1`
mirrored bytes occupies indices `capacity + 1 … capacity + groupWidth − 1`,
repeating bytes `0 … groupWidth − 2`.  (§6's coarser phrasing
"[capacity, capacity+groupWidth-1] mirror [0, groupWidth-1]" is off by one
against §3 and against the wrap-around modulus `capacity + 1`; the §3
reading is the one consistent with the rest of the spec and is the one
used here.) -/
def MirroredTail (ctrl : Nat → CWISS_ctrl_t) (capacity kWidth : Nat) : Prop :=
  ∀ j, j < kWidth - 1 → ctrl (capacity + 1 + j) = ctrl j

/-- The probe-sequence state after `n` advances (`CWISS_probe_seq_next`
iterated `n` times on `CWISS_probe_seq_new hash mask`). -/
def probeSeqAt (kWidth hash mask : Nat) : Nat → CWISS_probe_seq
  | 0 => CWISS_probe_seq_new hash mask
  | n + 1 => CWISS_probe_seq_next kWidth (probeSeqAt kWidth hash mask n)

/-- Triangular number `n * (n+1) / 2`, in recursive form. -/
def triangle : Nat → Nat
  | 0 => 0
  | n + 1 => triangle n + (n + 1)

/-- The closed-form progression stated by the spec for the probe sequence:
`offset` after `n` advances is `(seed + groupWidth * n * (n + 1) / 2) & mask`
(the spec's triangular progression `p(i) = groupWidth/2 * (i² − i) + seed
(mod mask + 1)`, indexed by advance count). -/
def probeClosedForm (kWidth seed mask n : Nat) : Nat :=
  (seed + kWidth * (n * (n + 1) / 2)) &&& mask

/-- The left-to-right scan the spec compares default resolution against: the
index (within the group) of the first Empty-or-Deleted byte among
`ctrl off … ctrl (off + kWidth - 1)`, or `kWidth` if there is none. -/
def leftToRightFirstEOD (kWidth : Nat) (ctrl : Nat → CWISS_ctrl_t) (off : Nat) : Nat :=
  match kWidth with
  | 0 => 0
  | k + 1 =>
      if CWISS_IsEmptyOrDeleted (ctrl off) then 0
      else leftToRightFirstEOD k ctrl (off + 1) + 1

/-- The empty-or-deleted group mask loaded at probe step `n`. -/
def groupMaskAt (kWidth : Nat) (ctrl : Nat → CWISS_ctrl_t) (hash mask n : Nat) : Nat :=
  CWISS_Group_MatchEmptyOrDeleted kWidth ctrl (probeSeqAt kWidth hash mask n).offset_

/-- Probe step `n` loads a group containing an Empty or Deleted byte. -/
def matchesAt (kWidth : Nat) (ctrl : Nat → CWISS_ctrl_t) (hash mask n : Nat) : Prop :=
  groupMaskAt kWidth ctrl hash mask n ≠ 0

instance matchesAt_dec (kWidth : Nat) (ctrl : Nat → CWISS_ctrl_t) (hash mask n : Nat) :
    Decidable (matchesAt kWidth ctrl hash mask n) :=
  @instDecidableNot _ (Nat.decEq (groupMaskAt kWidth ctrl hash mask n) 0)

/-- Conclusion of the slot-correctness claims: the search returns some
`FindInfo` whose offset is in `[0, capacity]` and whose control byte is
Empty or Deleted. -/
def ReturnsEmptyOrDeletedSlot (kWidth : Nat) (ctrl : Nat → CWISS_ctrl_t)
    (hash capacity fuel : Nat) : Prop :=
  ∃ info, CWISS_find_first_non_full kWidth ctrl hash capacity fuel = some info ∧
    info.offset ≤ capacity ∧ CWISS_IsEmptyOrDeleted (ctrl info.offset) = true

/-- Conclusion of the default-resolution claim: the checked build with the
exploration policy off and the release build return the same found slot,
and its offset is the left-to-right scan resolution of the first matching
group. -/
def ReleaseMatchesDebugForward (kWidth : Nat) (ctrl : Nat → CWISS_ctrl_t)
    (hash capacity fuel : Nat) : Prop :=
  ∃ info n,
    CWISS_find_first_non_full kWidth ctrl hash capacity fuel = some info ∧
    CWISS_find_first_non_full_dbg kWidth ctrl hash capacity false fuel =
      some (CWISS_FindResult.found info) ∧
    (∀ j, j < n → ¬ matchesAt kWidth ctrl hash capacity j) ∧
    matchesAt kWidth ctrl hash capacity n ∧
    info.offset = CWISS_probe_seq_offset (probeSeqAt kWidth hash capacity n)
      (leftToRightFirstEOD kWidth ctrl (probeSeqAt kWidth hash capacity n).offset_)

/-- Conclusion of the probe-length claim: the returned `probe_length` is the
sequence index at the first matching step `n`, equals `n * kWidth`, is a
multiple of `kWidth`, and is zero exactly when the very first group
matches. -/
def ProbeLengthIsGroupMultiple (kWidth : Nat) (ctrl : Nat → CWISS_ctrl_t)
    (hash capacity fuel : Nat) : Prop :=
  ∃ info n,
    CWISS_find_first_non_full kWidth ctrl hash capacity fuel = some info ∧
    (∀ j, j < n → ¬ matchesAt kWidth ctrl hash capacity j) ∧
    matchesAt kWidth ctrl hash capacity n ∧
    info.probe_length = (probeSeqAt kWidth hash capacity n).index_ ∧
    info.probe_length = n * kWidth ∧
    kWidth ∣ info.probe_length ∧
    (info.probe_length = 0 ↔ matchesAt kWidth ctrl hash capacity 0)

/-- Conclusion of the permutation claim: over one full cycle of
`(mask+1)/kWidth` steps the probe offsets are pairwise distinct, each is a
group-aligned residue `(hash + j*kWidth) & mask`, every such residue is
hit, and the `kWidth`-byte windows probed at different steps are disjoint
(after wrapping through the sequence modulus). -/
def ProbePermutesGroupResidues (kWidth : Nat) (hash mask : Nat) : Prop :=
  (∀ a b, a < (mask + 1) / kWidth → b < (mask + 1) / kWidth →
    (probeSeqAt kWidth hash mask a).offset_ = (probeSeqAt kWidth hash mask b).offset_ →
    a = b) ∧
  (∀ n, n < (mask + 1) / kWidth → ∃ j, j < (mask + 1) / kWidth ∧
    (probeSeqAt kWidth hash mask n).offset_ = (hash + j * kWidth) &&& mask) ∧
  (∀ j, j < (mask + 1) / kWidth → ∃ n, n < (mask + 1) / kWidth ∧
    (probeSeqAt kWidth hash mask n).offset_ = (hash + j * kWidth) &&& mask) ∧
  (∀ a b, a < (mask + 1) / kWidth → b < (mask + 1) / kWidth → a ≠ b →
    ∀ i j, i < kWidth → j < kWidth →
      CWISS_probe_seq_offset (probeSeqAt kWidth hash mask a) i ≠
        CWISS_probe_seq_offset (probeSeqAt kWidth hash mask b) j)

/-- Conclusion of the checked-build precondition claim: the checked build
returns a found slot (so the defensive bound check never fires). -/
def DbgFindsSlot (kWidth : Nat) (ctrl : Nat → CWISS_ctrl_t)
    (hash capacity : Nat) (backwards : Bool) (fuel : Nat) : Prop :=
  ∃ info, CWISS_find_first_non_full_dbg kWidth ctrl hash capacity backwards fuel =
    some (CWISS_FindResult.found info)

/-- The §8 concrete scenario: capacity 7, group width 8, control bytes
`[Full, Full, Deleted, Full, Empty, Full, Full, Full]` at offsets 0..7,
with the first 7 bytes mirrored at indices 8..14 (and Full beyond). -/
def ctrlC9 : Nat → CWISS_ctrl_t := fun p =>
  match p with
  | 2 => CWISS_ctrl_t.Deleted
  | 4 => CWISS_ctrl_t.Empty
  | 10 => CWISS_ctrl_t.Deleted
  | 12 => CWISS_ctrl_t.Empty
  | _ => CWISS_ctrl_t.Full 0

/-- An entirely Full control array (every byte Full), used to exercise the
precondition-violation behavior. -/
def ctrlFull : Nat → CWISS_ctrl_t := fun _ => CWISS_ctrl_t.Full 0

theorem two_mul_triangle (n : Nat) : 2 * triangle n = n * (n + 1) := by
  induction n with
  | zero => rfl
  | succ k ih => simp only [triangle, Nat.mul_add, ih]; ring

theorem triangle_eq (n : Nat) : triangle n = n * (n + 1) / 2 := by
  have h := two_mul_triangle n
  omega

theorem triangle_succ (n : Nat) : triangle (n + 1) = triangle n + (n + 1) := rfl

theorem triangle_mono {a b : Nat} (h : a ≤ b) : triangle a ≤ triangle b := by
  induction b with
  | zero =>
      have ha : a = 0 := by omega
      simp [ha]
  | succ k ih =>
      rcases Nat.lt_or_ge a (k + 1) with h' | h'
      · exact le_trans (ih (by omega)) (by simp [triangle_succ])
      · have ha : a = k + 1 := by omega
        simp [ha]

theorem triangle_add (a c : Nat) : triangle (a + c) = triangle a + triangle c + a * c := by
  induction c with
  | zero => simp [triangle]
  | succ d ih =>
      have h1 : a + (d + 1) = (a + d) + 1 := by omega
      rw [h1, triangle_succ, ih, triangle_succ]
      ring

theorem and_mask_eq_mod {m k : Nat} (hm : m + 1 = 2 ^ k) (a : Nat) :
    a &&& m = a % 2 ^ k := by
  have h : m = 2 ^ k - 1 := by omega
  rw [h]
  exact Nat.and_pow_two_sub_one_eq_mod a k

theorem probeSeqAt_mask (kWidth hash mask n : Nat) :
    (probeSeqAt kWidth hash mask n).mask_ = mask := by
  induction n with
  | zero => rfl
  | succ d ih => simp [probeSeqAt, CWISS_probe_seq_next, ih]

theorem probeSeqAt_index (kWidth hash mask n : Nat) :
    (probeSeqAt kWidth hash mask n).index_ = n * kWidth := by
  induction n with
  | zero => simp [probeSeqAt, CWISS_probe_seq_new]
  | succ d ih =>
      simp only [probeSeqAt, CWISS_probe_seq_next, ih]
      ring

theorem probeSeqAt_offset {mask k : Nat} (hm : mask + 1 = 2 ^ k)
    (kWidth hash n : Nat) :
    (probeSeqAt kWidth hash mask n).offset_ =
      (hash + kWidth * triangle n) % 2 ^ k := by
  induction n with
  | zero =>
      simp only [probeSeqAt, CWISS_probe_seq_new, triangle, Nat.mul_zero, Nat.add_zero]
      exact and_mask_eq_mod hm hash
  | succ d ih =>
      have hmask := probeSeqAt_mask kWidth hash mask d
      have hidx := probeSeqAt_index kWidth hash mask d
      simp only [probeSeqAt, CWISS_probe_seq_next, hmask, hidx, ih]
      rw [and_mask_eq_mod hm, Nat.mod_add_mod]
      congr 1
      rw [triangle_succ]
      ring

theorem triangle_inj_mod_le {t a b : Nat} (hab : a ≤ b) (ha : a < 2 ^ t) (hb : b < 2 ^ t)
    (h : triangle a % 2 ^ t = triangle b % 2 ^ t) : a = b := by
  by_contra hne
  have hc : 0 < b - a := by omega
  have hbc : b = a + (b - a) := by omega
  set c := b - a with hcdef
  have hmod : (2 : Nat) ^ t ∣ triangle c + a * c := by
    have h1 : triangle b = triangle a + (triangle c + a * c) := by
      rw [hbc, triangle_add]; ring
    have h2 : triangle a ≡ triangle a + (triangle c + a * c) [MOD 2 ^ t] := by
      unfold Nat.ModEq
      rw [← h1]; exact h
    have h3 := (Nat.modEq_iff_dvd' (Nat.le_add_right _ _)).mp h2
    simpa using h3
  have h2X : 2 * (triangle c + a * c) = c * (a + b + 1) := by
    calc 2 * (triangle c + a * c) = 2 * triangle c + 2 * (a * c) := by ring
      _ = c * (c + 1) + 2 * (a * c) := by rw [two_mul_triangle]
      _ = c * (a + (a + c) + 1) := by ring
      _ = c * (a + b + 1) := by rw [← hbc]
  have hdvd2 : (2 : Nat) ^ (t + 1) ∣ c * (a + b + 1) := by
    obtain ⟨q, hq⟩ := hmod
    refine ⟨q, ?_⟩
    rw [← h2X, hq]; ring
  have hpow : (2 : Nat) ^ (t + 1) = 2 * 2 ^ t := by ring
  rcases Nat.even_or_odd c with hce | hco
  · -- c even, so a + b + 1 is odd
    have hodd : Odd (a + b + 1) := by
      rcases hce with ⟨d, hd⟩
      exact ⟨a + d, by omega⟩
    have hcop : Nat.Coprime (2 ^ (t + 1)) (a + b + 1) :=
      Nat.Coprime.pow_left _ (Nat.coprime_two_left.mpr hodd)
    have hdc : (2 : Nat) ^ (t + 1) ∣ c := hcop.dvd_of_dvd_mul_right hdvd2
    have := Nat.le_of_dvd hc hdc
    omega
  · -- c odd
    have hcop : Nat.Coprime (2 ^ (t + 1)) c :=
      Nat.Coprime.pow_left _ (Nat.coprime_two_left.mpr hco)
    have hdab : (2 : Nat) ^ (t + 1) ∣ (a + b + 1) := hcop.dvd_of_dvd_mul_left hdvd2
    have := Nat.le_of_dvd (by omega) hdab
    omega

theorem triangle_inj_mod {t a b : Nat} (ha : a < 2 ^ t) (hb : b < 2 ^ t)
    (h : triangle a % 2 ^ t = triangle b % 2 ^ t) : a = b := by
  rcases le_total a b with hab | hab
  · exact triangle_inj_mod_le hab ha hb h
  · exact (triangle_inj_mod_le hab hb ha h.symm).symm

theorem triangle_mod_surj (t : Nat) {j : Nat} (hj : j < 2 ^ t) :
    ∃ n, n < 2 ^ t ∧ triangle n % 2 ^ t = j := by
  have hpos : 0 < 2 ^ t := Nat.pos_pow_of_pos t (by omega)
  have hinj : Set.InjOn (fun n => triangle n % 2 ^ t) ↑(Finset.range (2 ^ t)) := by
    intro x hx y hy hxy
    have hx' : x < 2 ^ t := Finset.mem_range.mp (Finset.mem_coe.mp hx)
    have hy' : y < 2 ^ t := Finset.mem_range.mp (Finset.mem_coe.mp hy)
    exact triangle_inj_mod hx' hy' hxy
  have hsub : Finset.image (fun n => triangle n % 2 ^ t) (Finset.range (2 ^ t)) ⊆
      Finset.range (2 ^ t) := by
    intro x hx
    simp only [Finset.mem_image, Finset.mem_range] at hx ⊢
    obtain ⟨n, _, rfl⟩ := hx
    exact Nat.mod_lt _ hpos
  have hcard : (Finset.image (fun n => triangle n % 2 ^ t) (Finset.range (2 ^ t))).card =
      2 ^ t := by
    rw [Finset.card_image_of_injOn hinj, Finset.card_range]
  have heq := Finset.eq_of_subset_of_card_le hsub (by rw [hcard, Finset.card_range])
  have hmem : j ∈ Finset.image (fun n => triangle n % 2 ^ t) (Finset.range (2 ^ t)) := by
    rw [heq]; exact Finset.mem_range.mpr hj
  simp only [Finset.mem_image, Finset.mem_range] at hmem
  obtain ⟨n, hn, hval⟩ := hmem
  exact ⟨n, hn, hval⟩

theorem add_pow_mul_mod {w k : Nat} (hwk : w ≤ k) (h t : Nat) :
    (h + 2 ^ w * t) % 2 ^ k = (h + 2 ^ w * (t % 2 ^ (k - w))) % 2 ^ k := by
  have hWN : (2 : Nat) ^ w * 2 ^ (k - w) = 2 ^ k := by
    rw [← pow_add]; congr 1; omega
  have h1 : t % 2 ^ (k - w) ≡ t [MOD 2 ^ (k - w)] := Nat.mod_modEq t _
  have h2 : 2 ^ w * (t % 2 ^ (k - w)) ≡ 2 ^ w * t [MOD 2 ^ w * 2 ^ (k - w)] :=
    h1.mul_left' (2 ^ w)
  rw [hWN] at h2
  exact ((h2.add_left h)).symm

theorem probeSeqAt_offset_residue {mask k w : Nat} (hm : mask + 1 = 2 ^ k) (hwk : w ≤ k)
    (hash n : Nat) :
    (probeSeqAt (2 ^ w) hash mask n).offset_ =
      (hash + 2 ^ w * (triangle n % 2 ^ (k - w))) % 2 ^ k := by
  rw [probeSeqAt_offset hm, add_pow_mul_mod hwk]

theorem pow_mul_mod_lt {k w : Nat} (hwk : w ≤ k) {x : Nat} (hx : x < 2 ^ (k - w)) :
    2 ^ w * x + 2 ^ w ≤ 2 ^ k := by
  have hWN : (2 : Nat) ^ w * 2 ^ (k - w) = 2 ^ k := by
    rw [← pow_add]; congr 1; omega
  calc 2 ^ w * x + 2 ^ w = 2 ^ w * (x + 1) := by ring
    _ ≤ 2 ^ w * 2 ^ (k - w) := Nat.mul_le_mul_left _ (by omega)
    _ = 2 ^ k := hWN

theorem probe_offsets_injOn {mask k w : Nat} (hm : mask + 1 = 2 ^ k) (hwk : w ≤ k)
    (hash : Nat) {a b : Nat} (ha : a < 2 ^ (k - w)) (hb : b < 2 ^ (k - w))
    (h : (probeSeqAt (2 ^ w) hash mask a).offset_ =
      (probeSeqAt (2 ^ w) hash mask b).offset_) : a = b := by
  rw [probeSeqAt_offset_residue hm hwk, probeSeqAt_offset_residue hm hwk] at h
  have h1 : 2 ^ w * (triangle a % 2 ^ (k - w)) ≡
      2 ^ w * (triangle b % 2 ^ (k - w)) [MOD 2 ^ k] :=
    Nat.ModEq.add_left_cancel' hash h
  have hWpos : 0 < (2 : Nat) ^ w := Nat.pos_pow_of_pos w (by omega)
  have hla : 2 ^ w * (triangle a % 2 ^ (k - w)) < 2 ^ k := by
    have := pow_mul_mod_lt hwk (Nat.mod_lt (triangle a) (Nat.pos_pow_of_pos (k - w) (by omega)))
    omega
  have hlb : 2 ^ w * (triangle b % 2 ^ (k - w)) < 2 ^ k := by
    have := pow_mul_mod_lt hwk (Nat.mod_lt (triangle b) (Nat.pos_pow_of_pos (k - w) (by omega)))
    omega
  have h2 : 2 ^ w * (triangle a % 2 ^ (k - w)) = 2 ^ w * (triangle b % 2 ^ (k - w)) := by
    have := h1
    unfold Nat.ModEq at this
    rwa [Nat.mod_eq_of_lt hla, Nat.mod_eq_of_lt hlb] at this
  have h3 : triangle a % 2 ^ (k - w) = triangle b % 2 ^ (k - w) :=
    Nat.eq_of_mul_eq_mul_left hWpos h2
  exact triangle_inj_mod ha hb h3

theorem probe_offsets_mem {mask k w : Nat} (hm : mask + 1 = 2 ^ k) (hwk : w ≤ k)
    (hash n : Nat) :
    ∃ j, j < 2 ^ (k - w) ∧
      (probeSeqAt (2 ^ w) hash mask n).offset_ = (hash + j * 2 ^ w) &&& mask := by
  refine ⟨triangle n % 2 ^ (k - w),
    Nat.mod_lt _ (Nat.pos_pow_of_pos (k - w) (by omega)), ?_⟩
  rw [probeSeqAt_offset_residue hm hwk, and_mask_eq_mod hm]
  congr 1
  ring

theorem probe_offsets_cover {mask k w : Nat} (hm : mask + 1 = 2 ^ k) (hwk : w ≤ k)
    (hash : Nat) {j : Nat} (hj : j < 2 ^ (k - w)) :
    ∃ n, n < 2 ^ (k - w) ∧
      (probeSeqAt (2 ^ w) hash mask n).offset_ = (hash + j * 2 ^ w) &&& mask := by
  obtain ⟨n, hn, hval⟩ := triangle_mod_surj (k - w) hj
  refine ⟨n, hn, ?_⟩
  rw [probeSeqAt_offset_residue hm hwk, hval, and_mask_eq_mod hm]
  congr 1
  ring

theorem probe_windows_disjoint {mask k w : Nat} (hm : mask + 1 = 2 ^ k) (hwk : w ≤ k)
    (hash : Nat) {a b : Nat} (ha : a < 2 ^ (k - w)) (hb : b < 2 ^ (k - w)) (hne : a ≠ b)
    {i₁ i₂ : Nat} (hi₁ : i₁ < 2 ^ w) (hi₂ : i₂ < 2 ^ w) :
    CWISS_probe_seq_offset (probeSeqAt (2 ^ w) hash mask a) i₁ ≠
      CWISS_probe_seq_offset (probeSeqAt (2 ^ w) hash mask b) i₂ := by
  intro h
  have hNpos : 0 < (2 : Nat) ^ (k - w) := Nat.pos_pow_of_pos (k - w) (by omega)
  unfold CWISS_probe_seq_offset at h
  rw [probeSeqAt_mask, probeSeqAt_mask, and_mask_eq_mod hm, and_mask_eq_mod hm,
    probeSeqAt_offset_residue hm hwk, probeSeqAt_offset_residue hm hwk,
    Nat.mod_add_mod, Nat.mod_add_mod] at h
  set ja := triangle a % 2 ^ (k - w) with hja
  set jb := triangle b % 2 ^ (k - w) with hjb
  have hjaN : ja < 2 ^ (k - w) := Nat.mod_lt _ hNpos
  have hjbN : jb < 2 ^ (k - w) := Nat.mod_lt _ hNpos
  have h1 : 2 ^ w * ja + i₁ ≡ 2 ^ w * jb + i₂ [MOD 2 ^ k] := by
    have h0 : hash + 2 ^ w * ja + i₁ ≡ hash + 2 ^ w * jb + i₂ [MOD 2 ^ k] := h
    have h0' : hash + (2 ^ w * ja + i₁) ≡ hash + (2 ^ w * jb + i₂) [MOD 2 ^ k] := by
      rw [← Nat.add_assoc, ← Nat.add_assoc]; exact h0
    exact Nat.ModEq.add_left_cancel' hash h0'
  have hla : 2 ^ w * ja + i₁ < 2 ^ k := by
    have := pow_mul_mod_lt hwk hjaN
    omega
  have hlb : 2 ^ w * jb + i₂ < 2 ^ k := by
    have := pow_mul_mod_lt hwk hjbN
    omega
  have h2 : 2 ^ w * ja + i₁ = 2 ^ w * jb + i₂ := by
    unfold Nat.ModEq at h1
    rwa [Nat.mod_eq_of_lt hla, Nat.mod_eq_of_lt hlb] at h1
  have hdiva : (2 ^ w * ja + i₁) / 2 ^ w = ja := by
    rw [Nat.mul_add_div (Nat.pos_pow_of_pos w (by omega))]
    simp [Nat.div_eq_of_lt hi₁]
  have hdivb : (2 ^ w * jb + i₂) / 2 ^ w = jb := by
    rw [Nat.mul_add_div (Nat.pos_pow_of_pos w (by omega))]
    simp [Nat.div_eq_of_lt hi₂]
  have hjeq : ja = jb := by rw [← hdiva, ← hdivb, h2]
  exact hne (triangle_inj_mod ha hb (by rw [← hja, ← hjb, hjeq]))

theorem matchEOD_testBit (kWidth : Nat) (ctrl : Nat → CWISS_ctrl_t) (off i : Nat) :
    (CWISS_Group_MatchEmptyOrDeleted kWidth ctrl off).testBit i =
      (decide (i < kWidth) && CWISS_IsEmptyOrDeleted (ctrl (off + i))) := by
  induction kWidth generalizing off i with
  | zero => simp [CWISS_Group_MatchEmptyOrDeleted, Nat.zero_testBit]
  | succ k ih =>
      cases i with
      | zero =>
          simp only [CWISS_Group_MatchEmptyOrDeleted, Nat.testBit_zero, Nat.add_zero]
          by_cases hEOD : CWISS_IsEmptyOrDeleted (ctrl off) = true
          · rw [if_pos hEOD, hEOD]
            simp only [Bool.and_true]
            have : (1 + 2 * CWISS_Group_MatchEmptyOrDeleted k ctrl (off + 1)) % 2 = 1 := by
              omega
            simp [this]
          · rw [if_neg hEOD]
            have hEOD' : CWISS_IsEmptyOrDeleted (ctrl off) = false :=
              Bool.eq_false_iff.mpr hEOD
            rw [hEOD']
            simp only [Bool.and_false]
            have : (0 + 2 * CWISS_Group_MatchEmptyOrDeleted k ctrl (off + 1)) % 2 = 0 := by
              omega
            simp [this]
      | succ i' =>
          simp only [CWISS_Group_MatchEmptyOrDeleted, Nat.testBit_add_one]
          have hdiv : ((if CWISS_IsEmptyOrDeleted (ctrl off) then 1 else 0) +
              2 * CWISS_Group_MatchEmptyOrDeleted k ctrl (off + 1)) / 2 =
              CWISS_Group_MatchEmptyOrDeleted k ctrl (off + 1) := by
            split <;> omega
          rw [hdiv, ih]
          have h1 : (decide (i' < k)) = (decide (i' + 1 < k + 1)) := by
            simp [Nat.succ_lt_succ_iff]
          have h2 : off + 1 + i' = off + (i' + 1) := by omega
          rw [h1, h2]

theorem matchEOD_lt (kWidth : Nat) (ctrl : Nat → CWISS_ctrl_t) (off : Nat) :
    CWISS_Group_MatchEmptyOrDeleted kWidth ctrl off < 2 ^ kWidth := by
  induction kWidth generalizing off with
  | zero => simp [CWISS_Group_MatchEmptyOrDeleted]
  | succ k ih =>
      have := ih (off + 1)
      simp only [CWISS_Group_MatchEmptyOrDeleted, pow_succ]
      split <;> omega

theorem matchEOD_ne_zero_iff (kWidth : Nat) (ctrl : Nat → CWISS_ctrl_t) (off : Nat) :
    CWISS_Group_MatchEmptyOrDeleted kWidth ctrl off ≠ 0 ↔
      ∃ i, i < kWidth ∧ CWISS_IsEmptyOrDeleted (ctrl (off + i)) = true := by
  constructor
  · intro h
    obtain ⟨i, hi⟩ := Nat.ne_zero_implies_bit_true h
    rw [matchEOD_testBit] at hi
    rcases Bool.and_eq_true_iff.mp hi with ⟨hiW, hEOD⟩
    exact ⟨i, of_decide_eq_true hiW, hEOD⟩
  · rintro ⟨i, hiW, hEOD⟩ h0
    have hbit := matchEOD_testBit kWidth ctrl off i
    rw [h0, Nat.zero_testBit, hEOD, decide_eq_true hiW] at hbit
    simp at hbit

theorem trailingZeros_eq {kWidth mask i : Nat} (hi : i < kWidth)
    (hset : mask.testBit i = true) (hlow : ∀ j, j < i → mask.testBit j = false) :
    CWISS_BitMask_TrailingZeros kWidth mask = i := by
  induction kWidth generalizing mask i with
  | zero => omega
  | succ k ih =>
      cases i with
      | zero =>
          have h1 : mask % 2 = 1 := by
            rw [Nat.testBit_zero] at hset
            exact of_decide_eq_true hset
          simp [CWISS_BitMask_TrailingZeros, h1]
      | succ i' =>
          have h0 : mask.testBit 0 = false := hlow 0 (by omega)
          have h1 : ¬ mask % 2 = 1 := by
            rw [Nat.testBit_zero] at h0
            simpa using h0
          simp only [CWISS_BitMask_TrailingZeros, if_neg h1]
          have hset' : (mask / 2).testBit i' = true := by
            rw [← Nat.testBit_add_one]; exact hset
          have hlow' : ∀ j, j < i' → (mask / 2).testBit j = false := by
            intro j hj
            rw [← Nat.testBit_add_one]
            exact hlow (j + 1) (by omega)
          rw [ih (by omega) hset' hlow']

theorem trailingZeros_matchEOD_eq_scan (kWidth : Nat) (ctrl : Nat → CWISS_ctrl_t)
    (off : Nat) :
    CWISS_BitMask_TrailingZeros kWidth (CWISS_Group_MatchEmptyOrDeleted kWidth ctrl off) =
      leftToRightFirstEOD kWidth ctrl off := by
  induction kWidth generalizing off with
  | zero => rfl
  | succ k ih =>
      by_cases hEOD : CWISS_IsEmptyOrDeleted (ctrl off) = true
      · have h1 : ((if CWISS_IsEmptyOrDeleted (ctrl off) then 1 else 0) +
            2 * CWISS_Group_MatchEmptyOrDeleted k ctrl (off + 1)) % 2 = 1 := by
          rw [if_pos hEOD]; omega
        simp [CWISS_BitMask_TrailingZeros, CWISS_Group_MatchEmptyOrDeleted,
          leftToRightFirstEOD, h1, hEOD]
      · have hEOD' : CWISS_IsEmptyOrDeleted (ctrl off) = false := Bool.eq_false_iff.mpr hEOD
        have hM : CWISS_Group_MatchEmptyOrDeleted (k + 1) ctrl off =
            2 * CWISS_Group_MatchEmptyOrDeleted k ctrl (off + 1) := by
          simp [CWISS_Group_MatchEmptyOrDeleted, hEOD']
        have hL : leftToRightFirstEOD (k + 1) ctrl off =
            leftToRightFirstEOD k ctrl (off + 1) + 1 := by
          simp [leftToRightFirstEOD, hEOD']
        rw [hM, hL]
        have hmod : ¬ (2 * CWISS_Group_MatchEmptyOrDeleted k ctrl (off + 1)) % 2 = 1 := by
          omega
        have hdiv : (2 * CWISS_Group_MatchEmptyOrDeleted k ctrl (off + 1)) / 2 =
            CWISS_Group_MatchEmptyOrDeleted k ctrl (off + 1) := by
          omega
        simp only [CWISS_BitMask_TrailingZeros, if_neg hmod, hdiv, ih]

theorem leftToRightFirstEOD_spec {kWidth : Nat} (ctrl : Nat → CWISS_ctrl_t) (off : Nat)
    (hex : ∃ i, i < kWidth ∧ CWISS_IsEmptyOrDeleted (ctrl (off + i)) = true) :
    leftToRightFirstEOD kWidth ctrl off < kWidth ∧
    CWISS_IsEmptyOrDeleted (ctrl (off + leftToRightFirstEOD kWidth ctrl off)) = true ∧
    ∀ j, j < leftToRightFirstEOD kWidth ctrl off →
      CWISS_IsEmptyOrDeleted (ctrl (off + j)) = false := by
  induction kWidth generalizing off with
  | zero =>
      obtain ⟨i, hi, _⟩ := hex
      omega
  | succ k ih =>
      by_cases hEOD : CWISS_IsEmptyOrDeleted (ctrl off) = true
      · refine ⟨?_, ?_, ?_⟩ <;> simp [leftToRightFirstEOD, hEOD]
      · have hEOD' : CWISS_IsEmptyOrDeleted (ctrl off) = false := Bool.eq_false_iff.mpr hEOD
        have hex' : ∃ i, i < k ∧ CWISS_IsEmptyOrDeleted (ctrl (off + 1 + i)) = true := by
          obtain ⟨i, hi, hE⟩ := hex
          cases i with
          | zero => rw [Nat.add_zero] at hE; exact absurd hE hEOD
          | succ i' =>
              refine ⟨i', by omega, ?_⟩
              have : off + 1 + i' = off + (i' + 1) := by omega
              rw [this]; exact hE
        obtain ⟨h1, h2, h3⟩ := ih (off + 1) hex'
        simp only [leftToRightFirstEOD, if_neg hEOD]
        refine ⟨by omega, ?_, ?_⟩
        · have : off + (leftToRightFirstEOD k ctrl (off + 1) + 1) =
              off + 1 + leftToRightFirstEOD k ctrl (off + 1) := by omega
          rw [this]; exact h2
        · intro j hj
          cases j with
          | zero => simpa using hEOD'
          | succ j' =>
              have : off + (j' + 1) = off + 1 + j' := by omega
              rw [this]
              exact h3 j' (by omega)

/-- Under the mirrored-tail layout, the physical byte a group load reads at
`off + i` (with `off ≤ capacity`, `i < kWidth`) equals the logical byte at
the wrapped offset `(off + i) % (capacity + 1)`. -/
theorem ctrl_wrap {ctrl : Nat → CWISS_ctrl_t} {capacity kWidth : Nat}
    (hmt : MirroredTail ctrl capacity kWidth) (hWm : kWidth ≤ capacity + 1) {off i : Nat}
    (hoff : off ≤ capacity) (hi : i < kWidth) :
    ctrl ((off + i) % (capacity + 1)) = ctrl (off + i) := by
  rcases le_or_lt (off + i) capacity with hle | hgt
  · rw [Nat.mod_eq_of_lt (by omega)]
  · have hlt : off + i - (capacity + 1) < capacity + 1 := by omega
    have hj : off + i - (capacity + 1) < kWidth - 1 := by omega
    have hmodeq : (off + i) % (capacity + 1) = off + i - (capacity + 1) := by
      rw [Nat.mod_eq_sub_mod (by omega), Nat.mod_eq_of_lt hlt]
    rw [hmodeq]
    set j := off + i - (capacity + 1) with hjdef
    have heq2 : off + i = capacity + 1 + j := by omega
    rw [heq2]
    exact (hmt j hj).symm

theorem probeSeqAt_succ (kWidth hash mask n : Nat) :
    probeSeqAt kWidth hash mask (n + 1) =
      CWISS_probe_seq_next kWidth (probeSeqAt kWidth hash mask n) := rfl

/-- If the first `d` groups starting at step `n₀` have no Empty-or-Deleted
byte and the group at step `n₀ + d` has one, the release-build loop started
at step `n₀` with more than `d` units of fuel stops at step `n₀ + d` and
returns the trailing-zeros resolution there, with `probe_length` equal to
the sequence's index at that step. -/
theorem find_loop_reaches {kWidth : Nat} (ctrl : Nat → CWISS_ctrl_t) (hash mask : Nat)
    (n₀ d fuel : Nat)
    (hnomatch : ∀ j, j < d → ¬ matchesAt kWidth ctrl hash mask (n₀ + j))
    (hmatch : matchesAt kWidth ctrl hash mask (n₀ + d))
    (hfuel : d < fuel) :
    CWISS_find_first_non_full_loop kWidth ctrl (probeSeqAt kWidth hash mask n₀) fuel =
      some { offset := CWISS_probe_seq_offset (probeSeqAt kWidth hash mask (n₀ + d))
               (CWISS_BitMask_TrailingZeros kWidth (groupMaskAt kWidth ctrl hash mask (n₀ + d)))
             probe_length := (n₀ + d) * kWidth } := by
  induction d generalizing n₀ fuel with
  | zero =>
      cases fuel with
      | zero => omega
      | succ f =>
          rw [Nat.add_zero] at hmatch ⊢
          have hm : CWISS_Group_MatchEmptyOrDeleted kWidth ctrl
              (probeSeqAt kWidth hash mask n₀).offset_ ≠ 0 := hmatch
          simp only [CWISS_find_first_non_full_loop, if_pos hm]
          rw [probeSeqAt_index]
          rfl
  | succ d ih =>
      cases fuel with
      | zero => omega
      | succ f =>
          have hnm : ¬ matchesAt kWidth ctrl hash mask n₀ := by
            have := hnomatch 0 (by omega)
            rwa [Nat.add_zero] at this
          have hm0 : CWISS_Group_MatchEmptyOrDeleted kWidth ctrl
              (probeSeqAt kWidth hash mask n₀).offset_ = 0 := not_not.mp hnm
          simp only [CWISS_find_first_non_full_loop]
          rw [if_neg (fun hcon => hcon hm0), ← probeSeqAt_succ]
          have harith : n₀ + (d + 1) = (n₀ + 1) + d := by omega
          rw [harith] at hmatch ⊢
          exact ih (n₀ + 1) f
            (fun j hj => by
              have := hnomatch (j + 1) (by omega)
              rwa [show n₀ + (j + 1) = n₀ + 1 + j by omega] at this)
            hmatch (by omega)

theorem probeSeqAt_offset_le {mask k : Nat} (hm : mask + 1 = 2 ^ k)
    (kWidth hash n : Nat) : (probeSeqAt kWidth hash mask n).offset_ ≤ mask := by
  induction n with
  | zero =>
      simp only [probeSeqAt, CWISS_probe_seq_new]
      exact Nat.and_le_right
  | succ d ih =>
      simp only [probeSeqAt, CWISS_probe_seq_next, probeSeqAt_mask]
      exact Nat.and_le_right

/-- Any logical slot `q ≤ mask` holding an Empty or Deleted byte is seen by
some probe step within the first `(mask+1)/kWidth` steps: the probe windows
tile the whole address space. -/
theorem exists_match_step {mask k w : Nat} {ctrl : Nat → CWISS_ctrl_t}
    (hm : mask + 1 = 2 ^ k) (hwk : w ≤ k)
    (hmt : MirroredTail ctrl mask (2 ^ w)) (hash : Nat)
    {q : Nat} (hq : q ≤ mask) (hEOD : CWISS_IsEmptyOrDeleted (ctrl q) = true) :
    ∃ n, n < 2 ^ (k - w) ∧ matchesAt (2 ^ w) ctrl hash mask n := by
  have hkpos : 0 < (2 : Nat) ^ k := Nat.pos_pow_of_pos k (by omega)
  have hWpos : 0 < (2 : Nat) ^ w := Nat.pos_pow_of_pos w (by omega)
  have hWN : (2 : Nat) ^ w * 2 ^ (k - w) = 2 ^ k := by
    rw [← pow_add]; congr 1; omega
  have hWm : (2 : Nat) ^ w ≤ mask + 1 := by
    rw [hm]; exact Nat.pow_le_pow_right (by omega) hwk
  have hq' : q < 2 ^ k := by omega
  -- choose the displacement d with (hash + d) % 2^k = q and d < 2^k
  obtain ⟨d, hd, hdq⟩ : ∃ d, d < 2 ^ k ∧ (hash + d) % 2 ^ k = q := by
    have hh : hash % 2 ^ k < 2 ^ k := Nat.mod_lt hash hkpos
    rcases le_or_lt (hash % 2 ^ k) q with hle | hgt
    · refine ⟨q - hash % 2 ^ k, by omega, ?_⟩
      rw [← Nat.mod_add_mod]
      have : hash % 2 ^ k + (q - hash % 2 ^ k) = q := by omega
      rw [this, Nat.mod_eq_of_lt hq']
    · refine ⟨q + 2 ^ k - hash % 2 ^ k, by omega, ?_⟩
      rw [← Nat.mod_add_mod]
      have : hash % 2 ^ k + (q + 2 ^ k - hash % 2 ^ k) = q + 2 ^ k := by omega
      rw [this, Nat.add_mod_right, Nat.mod_eq_of_lt hq']
  -- split d into a group-aligned part and an in-group part
  have hi : d % 2 ^ w < 2 ^ w := Nat.mod_lt d hWpos
  have hj : d / 2 ^ w < 2 ^ (k - w) := by
    apply Nat.div_lt_of_lt_mul
    rw [hWN]
    exact hd
  obtain ⟨n, hn, hoffn⟩ := probe_offsets_cover hm hwk hash hj
  refine ⟨n, hn, ?_⟩
  have hoffle : (probeSeqAt (2 ^ w) hash mask n).offset_ ≤ mask :=
    probeSeqAt_offset_le hm _ hash n
  -- the wrapped position of byte d % 2^w of group n is q
  have hwrapq : ((probeSeqAt (2 ^ w) hash mask n).offset_ + d % 2 ^ w) % (mask + 1) = q := by
    rw [hoffn, and_mask_eq_mod hm, hm, Nat.mod_add_mod]
    have : hash + d / 2 ^ w * 2 ^ w + d % 2 ^ w = hash + d := by
      have hdm := Nat.div_add_mod d (2 ^ w)
      have hcomm : d / 2 ^ w * 2 ^ w = 2 ^ w * (d / 2 ^ w) := Nat.mul_comm _ _
      omega
    rw [this, hdq]
  have hphys : CWISS_IsEmptyOrDeleted
      (ctrl ((probeSeqAt (2 ^ w) hash mask n).offset_ + d % 2 ^ w)) = true := by
    rw [← ctrl_wrap hmt hWm hoffle hi, hwrapq]
    exact hEOD
  exact (matchEOD_ne_zero_iff _ ctrl _).mpr ⟨d % 2 ^ w, hi, hphys⟩

/-- At any matching step, the trailing-zeros resolution picks an in-bounds
offset whose control byte is Empty or Deleted. -/
theorem find_offset_good {mask k w : Nat} {ctrl : Nat → CWISS_ctrl_t}
    (hm : mask + 1 = 2 ^ k) (hwk : w ≤ k)
    (hmt : MirroredTail ctrl mask (2 ^ w)) (hash : Nat) {n : Nat}
    (hmatch : matchesAt (2 ^ w) ctrl hash mask n) :
    CWISS_probe_seq_offset (probeSeqAt (2 ^ w) hash mask n)
      (CWISS_BitMask_TrailingZeros (2 ^ w) (groupMaskAt (2 ^ w) ctrl hash mask n)) ≤ mask ∧
    CWISS_IsEmptyOrDeleted (ctrl
      (CWISS_probe_seq_offset (probeSeqAt (2 ^ w) hash mask n)
        (CWISS_BitMask_TrailingZeros (2 ^ w) (groupMaskAt (2 ^ w) ctrl hash mask n))))
      = true := by
  have hWm : (2 : Nat) ^ w ≤ mask + 1 := by
    rw [hm]; exact Nat.pow_le_pow_right (by omega) hwk
  have hoffle : (probeSeqAt (2 ^ w) hash mask n).offset_ ≤ mask :=
    probeSeqAt_offset_le hm _ hash n
  have hex : ∃ i, i < 2 ^ w ∧ CWISS_IsEmptyOrDeleted
      (ctrl ((probeSeqAt (2 ^ w) hash mask n).offset_ + i)) = true :=
    (matchEOD_ne_zero_iff _ ctrl _).mp hmatch
  obtain ⟨hsc1, hsc2, hsc3⟩ := leftToRightFirstEOD_spec ctrl _ hex
  have htz : CWISS_BitMask_TrailingZeros (2 ^ w) (groupMaskAt (2 ^ w) ctrl hash mask n) =
      leftToRightFirstEOD (2 ^ w) ctrl (probeSeqAt (2 ^ w) hash mask n).offset_ :=
    trailingZeros_matchEOD_eq_scan _ ctrl _
  have hro : CWISS_probe_seq_offset (probeSeqAt (2 ^ w) hash mask n)
      (CWISS_BitMask_TrailingZeros (2 ^ w) (groupMaskAt (2 ^ w) ctrl hash mask n)) =
      ((probeSeqAt (2 ^ w) hash mask n).offset_ +
        leftToRightFirstEOD (2 ^ w) ctrl (probeSeqAt (2 ^ w) hash mask n).offset_) %
        (mask + 1) := by
    unfold CWISS_probe_seq_offset
    rw [probeSeqAt_mask, htz, and_mask_eq_mod hm, hm]
  constructor
  · rw [hro]
    have := Nat.mod_lt ((probeSeqAt (2 ^ w) hash mask n).offset_ +
      leftToRightFirstEOD (2 ^ w) ctrl (probeSeqAt (2 ^ w) hash mask n).offset_)
      (show 0 < mask + 1 by omega)
    omega
  · rw [hro, ctrl_wrap hmt hWm hoffle hsc1]
    exact hsc2

/-- Central characterization of the release-build search under the claims'
preconditions: there is a first matching step `n` below `(mask+1)/kWidth`,
and the search (given that much fuel) returns the trailing-zeros resolution
of step `n` with `probe_length = n * kWidth`. -/
theorem find_main {mask k w : Nat} {ctrl : Nat → CWISS_ctrl_t}
    (hm : mask + 1 = 2 ^ k) (hwk : w ≤ k)
    (hmt : MirroredTail ctrl mask (2 ^ w)) (hash : Nat)
    (hpre : ∃ q, q ≤ mask ∧ CWISS_IsEmptyOrDeleted (ctrl q) = true) :
    ∃ n, n < 2 ^ (k - w) ∧
      (∀ j, j < n → ¬ matchesAt (2 ^ w) ctrl hash mask j) ∧
      matchesAt (2 ^ w) ctrl hash mask n ∧
      CWISS_find_first_non_full (2 ^ w) ctrl hash mask (2 ^ (k - w)) =
        some { offset := CWISS_probe_seq_offset (probeSeqAt (2 ^ w) hash mask n)
                 (CWISS_BitMask_TrailingZeros (2 ^ w) (groupMaskAt (2 ^ w) ctrl hash mask n))
               probe_length := n * 2 ^ w } := by
  obtain ⟨q, hq, hE⟩ := hpre
  obtain ⟨n₁, hn₁, hmatch₁⟩ := exists_match_step hm hwk hmt hash hq hE
  have hex : ∃ n, matchesAt (2 ^ w) ctrl hash mask n := ⟨n₁, hmatch₁⟩
  refine ⟨Nat.find hex, ?_, ?_, Nat.find_spec hex, ?_⟩
  · exact Nat.lt_of_le_of_lt (Nat.find_min' hex hmatch₁) hn₁
  · exact fun j hj => Nat.find_min hex hj
  · have := find_loop_reaches ctrl hash mask 0 (Nat.find hex) (2 ^ (k - w))
      (fun j hj => by rw [Nat.zero_add]; exact Nat.find_min hex hj)
      (by rw [Nat.zero_add]; exact Nat.find_spec hex)
      (Nat.lt_of_le_of_lt (Nat.find_min' hex hmatch₁) hn₁)
    rw [Nat.zero_add] at this
    exact this

theorem matchEOD_eq_zero_of_full {ctrl : Nat → CWISS_ctrl_t}
    (hfull : ∀ p, CWISS_IsEmptyOrDeleted (ctrl p) = false) (kWidth off : Nat) :
    CWISS_Group_MatchEmptyOrDeleted kWidth ctrl off = 0 := by
  by_contra h
  obtain ⟨i, _, hE⟩ := (matchEOD_ne_zero_iff kWidth ctrl off).mp h
  rw [hfull (off + i)] at hE
  exact Bool.false_ne_true hE

/-- On an entirely Full control array, the checked-build loop advances until
the defensive `index_ ≤ capacity` check fails, and reports it. -/
theorem dbg_loop_full {kWidth : Nat} (hWpos : 0 < kWidth) {ctrl : Nat → CWISS_ctrl_t}
    (hfull : ∀ p, CWISS_IsEmptyOrDeleted (ctrl p) = false)
    (hash capacity : Nat) (backwards : Bool) :
    ∀ fuel n₀, capacity / kWidth + 1 ≤ n₀ + fuel → n₀ ≤ capacity / kWidth →
    CWISS_find_first_non_full_dbg_loop kWidth ctrl capacity backwards
      (probeSeqAt kWidth hash capacity n₀) fuel =
      some CWISS_FindResult.fullTableCheckFailed := by
  intro fuel
  induction fuel with
  | zero => intro n₀ h1 h2; omega
  | succ f ih =>
      intro n₀ h1 h2
      have hm0 : CWISS_Group_MatchEmptyOrDeleted kWidth ctrl
          (probeSeqAt kWidth hash capacity n₀).offset_ = 0 :=
        matchEOD_eq_zero_of_full hfull _ _
      simp only [CWISS_find_first_non_full_dbg_loop]
      rw [if_neg (fun hcon => hcon hm0), ← probeSeqAt_succ]
      have hidx : (probeSeqAt kWidth hash capacity (n₀ + 1)).index_ = (n₀ + 1) * kWidth :=
        probeSeqAt_index _ _ _ _
      rcases le_or_lt ((n₀ + 1) * kWidth) capacity with hle | hgt
      · rw [if_pos (by rw [hidx]; exact hle)]
        have hn₀1 : n₀ + 1 ≤ capacity / kWidth := by
          rw [Nat.le_div_iff_mul_le hWpos]
          exact hle
        exact ih (n₀ + 1) (by omega) hn₀1
      · rw [if_neg (by rw [hidx]; omega)]

/-- If the first `d` groups starting at step `n₀` have no Empty-or-Deleted
byte, the group at step `n₀ + d` has one, and the index stays within the
defensive bound along the way, then the checked-build loop returns a found
slot at step `n₀ + d` (resolved backward or forward per the policy). -/
theorem dbg_loop_reaches {kWidth : Nat} (ctrl : Nat → CWISS_ctrl_t) (hash mask : Nat)
    (backwards : Bool) (n₀ d fuel : Nat)
    (hnomatch : ∀ j, j < d → ¬ matchesAt kWidth ctrl hash mask (n₀ + j))
    (hmatch : matchesAt kWidth ctrl hash mask (n₀ + d))
    (hfuel : d < fuel)
    (hidx : (n₀ + d) * kWidth ≤ mask) :
    CWISS_find_first_non_full_dbg_loop kWidth ctrl mask backwards
      (probeSeqAt kWidth hash mask n₀) fuel =
      some (CWISS_FindResult.found
        { offset := CWISS_probe_seq_offset (probeSeqAt kWidth hash mask (n₀ + d))
            (if backwards then
              CWISS_BitMask_HighestBitSet kWidth (groupMaskAt kWidth ctrl hash mask (n₀ + d))
            else
              CWISS_BitMask_TrailingZeros kWidth (groupMaskAt kWidth ctrl hash mask (n₀ + d)))
          probe_length := (n₀ + d) * kWidth }) := by
  induction d generalizing n₀ fuel with
  | zero =>
      cases fuel with
      | zero => omega
      | succ f =>
          rw [Nat.add_zero] at hmatch ⊢
          have hm : CWISS_Group_MatchEmptyOrDeleted kWidth ctrl
              (probeSeqAt kWidth hash mask n₀).offset_ ≠ 0 := hmatch
          simp only [CWISS_find_first_non_full_dbg_loop, if_pos hm]
          cases backwards with
          | false =>
              simp only [Bool.false_eq_true, if_neg (fun h => Bool.false_ne_true h)]
              rw [probeSeqAt_index]
              rfl
          | true =>
              simp only [if_pos rfl]
              rw [probeSeqAt_index]
              rfl
  | succ d ih =>
      cases fuel with
      | zero => omega
      | succ f =>
          have hnm : ¬ matchesAt kWidth ctrl hash mask n₀ := by
            have := hnomatch 0 (by omega)
            rwa [Nat.add_zero] at this
          have hm0 : CWISS_Group_MatchEmptyOrDeleted kWidth ctrl
              (probeSeqAt kWidth hash mask n₀).offset_ = 0 := not_not.mp hnm
          simp only [CWISS_find_first_non_full_dbg_loop]
          rw [if_neg (fun hcon => hcon hm0), ← probeSeqAt_succ]
          have hidx1 : (probeSeqAt kWidth hash mask (n₀ + 1)).index_ = (n₀ + 1) * kWidth :=
            probeSeqAt_index _ _ _ _
          have hle : (n₀ + 1) * kWidth ≤ mask := by
            have : (n₀ + 1) * kWidth ≤ (n₀ + (d + 1)) * kWidth :=
              Nat.mul_le_mul_right _ (by omega)
            omega
          rw [if_pos (by rw [hidx1]; exact hle)]
          have harith : n₀ + (d + 1) = (n₀ + 1) + d := by omega
          rw [harith] at hmatch hidx ⊢
          exact ih (n₀ + 1) f
            (fun j hj => by
              have := hnomatch (j + 1) (by omega)
              rwa [show n₀ + (j + 1) = n₀ + 1 + j by omega] at this)
            hmatch (by omega) hidx

theorem pow_le_pow_exponent {w k : Nat} (h : (2 : Nat) ^ w ≤ 2 ^ k) : w ≤ k := by
  by_contra hc
  have h2 : (2 : Nat) ^ (k + 1) ≤ 2 ^ w := Nat.pow_le_pow_right (by omega) (by omega)
  have h3 : (2 : Nat) ^ (k + 1) = 2 * 2 ^ k := by ring
  have h4 : 0 < (2 : Nat) ^ k := Nat.pos_pow_of_pos k (by omega)
  omega

theorem cap_div_width {capacity k w : Nat} (hcap : capacity + 1 = 2 ^ k) (hwk : w ≤ k) :
    capacity / 2 ^ w + 1 = 2 ^ (k - w) := by
  have hWN : (2 : Nat) ^ w * 2 ^ (k - w) = 2 ^ k := by
    rw [← pow_add]; congr 1; omega
  have hWpos : 0 < (2 : Nat) ^ w := Nat.pos_pow_of_pos w (by omega)
  have hNpos : 0 < (2 : Nat) ^ (k - w) := Nat.pos_pow_of_pos (k - w) (by omega)
  have hsub : (2 ^ (k - w) - 1) * 2 ^ w = 2 ^ w * 2 ^ (k - w) - 2 ^ w := by
    rw [Nat.sub_mul, Nat.one_mul, Nat.mul_comm]
  have hle : (2 ^ (k - w) - 1) * 2 ^ w ≤ capacity := by
    rw [hsub, hWN]; omega
  have hlt : capacity < 2 ^ w * 2 ^ (k - w) := by rw [hWN]; omega
  have hdle : 2 ^ (k - w) - 1 ≤ capacity / 2 ^ w := (Nat.le_div_iff_mul_le hWpos).mpr hle
  have hdlt : capacity / 2 ^ w < 2 ^ (k - w) := Nat.div_lt_of_lt_mul hlt
  omega

/-- C1: for every capacity such that `capacity + 1` is a power of two with
`capacity + 1 ≥ kWidth`, every hash seed, and every control array
satisfying the mirrored-tail layout with at least one reachable Empty or
Deleted byte, `CWISS_find_first_non_full` returns a `FindInfo` whose offset
lies in `[0, capacity]` and whose control byte at that offset is Empty or
Deleted — even when the matching bit falls in the mirrored tail, because
the resolved bit position is wrapped through the sequence's mask. -/
theorem claim_C1 {capacity k w kWidth : Nat} {ctrl : Nat → CWISS_ctrl_t}
    (hcap : capacity + 1 = 2 ^ k) (hkW : kWidth = 2 ^ w) (hWcap : kWidth ≤ capacity + 1)
    (hmt : MirroredTail ctrl capacity kWidth) (hash : Nat)
    (hpre : ∃ q, q ≤ capacity ∧ CWISS_IsEmptyOrDeleted (ctrl q) = true) :
    ReturnsEmptyOrDeletedSlot kWidth ctrl hash capacity ((capacity + 1) / kWidth) := by
  subst hkW
  have hwk : w ≤ k := pow_le_pow_exponent (by omega)
  have hfuel : (capacity + 1) / 2 ^ w = 2 ^ (k - w) := by
    rw [hcap, Nat.pow_div hwk (by omega)]
  unfold ReturnsEmptyOrDeletedSlot
  rw [hfuel]
  obtain ⟨n, hnN, hno, hma, heq⟩ := find_main hcap hwk hmt hash hpre
  obtain ⟨hle, hE⟩ := find_offset_good hcap hwk hmt hash hma
  exact ⟨_, heq, hle, hE⟩

/-- Witness for C1 at the §8 scenario: capacity 7, group width 8, seed 0,
with a Deleted byte at offset 2. -/
theorem claim_C1_witness :
    ReturnsEmptyOrDeletedSlot 8 ctrlC9 0 7 ((7 + 1) / 8) :=
  @claim_C1 7 3 3 8 ctrlC9 (by decide) (by decide) (by decide)
    (by unfold MirroredTail; decide) 0 ⟨2, by decide, by decide⟩

/-- C3: the iterative update `index_ += kWidth; offset_ = (offset_ + index_)
& mask` is extensionally the closed-form triangular progression: after `n`
advances, `index_ = n * kWidth` and
`offset_ = (hash + kWidth * (n*(n+1)/2)) & mask`. -/
theorem claim_C3 {mask k : Nat} (hm : mask + 1 = 2 ^ k) (kWidth hash n : Nat) :
    (probeSeqAt kWidth hash mask n).index_ = n * kWidth ∧
    (probeSeqAt kWidth hash mask n).offset_ = probeClosedForm kWidth hash mask n := by
  refine ⟨probeSeqAt_index kWidth hash mask n, ?_⟩
  rw [probeSeqAt_offset hm]
  unfold probeClosedForm
  rw [← triangle_eq, and_mask_eq_mod hm]

/-- Witness for C3: mask 15, group width 8, seed 12; one advance moves the
offset to `(12 + 8) & 15 = 4`. -/
theorem claim_C3_witness :
    ((probeSeqAt 8 12 15 1).index_ = 1 * 8 ∧
      (probeSeqAt 8 12 15 1).offset_ = probeClosedForm 8 12 15 1) ∧
    (probeSeqAt 8 12 15 1).offset_ = 4 :=
  ⟨@claim_C3 15 4 (by decide) 8 12 1, by decide⟩

/-- C4: for any mask `2^k − 1` with `mask + 1 ≥ kWidth`, the invariant
`offset_ ∈ [0, mask]` holds after `CWISS_probe_seq_new` and after every
`CWISS_probe_seq_next`, and `CWISS_probe_seq_offset` always returns a value
in `[0, mask]`. -/
theorem claim_C4 {mask k w kWidth : Nat} (hm : mask + 1 = 2 ^ k) (hkW : kWidth = 2 ^ w)
    (hWm : kWidth ≤ mask + 1) (hash n i : Nat) :
    (probeSeqAt kWidth hash mask n).offset_ ≤ mask ∧
    CWISS_probe_seq_offset (probeSeqAt kWidth hash mask n) i ≤ mask := by
  constructor
  · exact probeSeqAt_offset_le hm kWidth hash n
  · unfold CWISS_probe_seq_offset
    rw [probeSeqAt_mask]
    exact Nat.and_le_right

/-- Witness for C4: mask 15, group width 8, seed 12, two advances, probe
displacement 5. -/
theorem claim_C4_witness :
    (probeSeqAt 8 12 15 2).offset_ ≤ 15 ∧
    CWISS_probe_seq_offset (probeSeqAt 8 12 15 2) 5 ≤ 15 :=
  @claim_C4 15 4 3 8 (by decide) (by decide) (by decide) 12 2 5

/-- C5: for every capacity of the required shape and control array with at
least one reachable Empty or Deleted byte, the search loop terminates
within `(capacity + 1) / kWidth` group loads. -/
theorem claim_C5 {capacity k w kWidth : Nat} {ctrl : Nat → CWISS_ctrl_t}
    (hcap : capacity + 1 = 2 ^ k) (hkW : kWidth = 2 ^ w) (hWcap : kWidth ≤ capacity + 1)
    (hmt : MirroredTail ctrl capacity kWidth) (hash : Nat)
    (hpre : ∃ q, q ≤ capacity ∧ CWISS_IsEmptyOrDeleted (ctrl q) = true) :
    (CWISS_find_first_non_full kWidth ctrl hash capacity
      ((capacity + 1) / kWidth)).isSome = true := by
  subst hkW
  have hwk : w ≤ k := pow_le_pow_exponent (by omega)
  have hfuel : (capacity + 1) / 2 ^ w = 2 ^ (k - w) := by
    rw [hcap, Nat.pow_div hwk (by omega)]
  rw [hfuel]
  obtain ⟨n, hnN, hno, hma, heq⟩ := find_main hcap hwk hmt hash hpre
  rw [heq]
  rfl

/-- Witness for C5 at the §8 scenario. -/
theorem claim_C5_witness :
    (CWISS_find_first_non_full 8 ctrlC9 0 7 ((7 + 1) / 8)).isSome = true :=
  @claim_C5 7 3 3 8 ctrlC9 (by decide) (by decide) (by decide)
    (by unfold MirroredTail; decide) 0 ⟨2, by decide, by decide⟩

/-- C9: the concrete default-resolution scenario: capacity 7, group width 8,
control bytes `[Full, Full, Deleted, Full, Empty, Full, Full, Full]`, seed 0.
The first group scan produces bitmask 20 (bits 2 and 4 set) and the search
returns offset 2 (the lowest set bit) with probe length 0. -/
theorem claim_C9 :
    CWISS_Group_MatchEmptyOrDeleted 8 ctrlC9 (probeSeqAt 8 0 7 0).offset_ = 20 ∧
    (CWISS_Group_MatchEmptyOrDeleted 8 ctrlC9 (probeSeqAt 8 0 7 0).offset_).testBit 2
      = true ∧
    (CWISS_Group_MatchEmptyOrDeleted 8 ctrlC9 (probeSeqAt 8 0 7 0).offset_).testBit 4
      = true ∧
    CWISS_find_first_non_full 8 ctrlC9 0 7 1 =
      some { offset := 2, probe_length := 0 } := by
  decide

/-- C10: every group load starts at an offset in `[0, capacity]` — the start
can equal `capacity` itself (e.g. when the seed masked by `capacity` is
`capacity`) — so each load reads byte indices at most
`capacity + kWidth - 1`, inside a control array of logical size
`capacity + kWidth`. -/
theorem claim_C10 {capacity k : Nat} (hcap : capacity + 1 = 2 ^ k)
    (kWidth hash n : Nat) {i : Nat} (hi : i < kWidth) :
    (probeSeqAt kWidth hash capacity n).offset_ ≤ capacity ∧
    (probeSeqAt kWidth hash capacity n).offset_ + i ≤ capacity + kWidth - 1 ∧
    (probeSeqAt kWidth hash capacity n).offset_ + i < capacity + kWidth ∧
    (probeSeqAt kWidth capacity capacity 0).offset_ = capacity := by
  have h1 := probeSeqAt_offset_le hcap kWidth hash n
  refine ⟨h1, by omega, by omega, ?_⟩
  simp only [probeSeqAt, CWISS_probe_seq_new]
  exact Nat.and_self capacity

/-- Witness for C10: capacity 7, group width 8, seed 5, step 2, byte 7 of
the group. -/
theorem claim_C10_witness :
    (probeSeqAt 8 5 7 2).offset_ ≤ 7 ∧
    (probeSeqAt 8 5 7 2).offset_ + 7 ≤ 7 + 8 - 1 ∧
    (probeSeqAt 8 5 7 2).offset_ + 7 < 7 + 8 ∧
    (probeSeqAt 8 7 7 0).offset_ = 7 :=
  @claim_C10 7 3 (by decide) 8 5 2 7 (by decide)

/-- C2: for every mask `m` with `m+1` a power of two at least `kWidth` and
every seed, the first `(m+1)/kWidth` probe offsets are pairwise distinct and
form a permutation of the group-aligned residues
`{(seed + j*kWidth) & m : j < (m+1)/kWidth}`; consequently the
`kWidth`-byte windows probed at different steps do not overlap. -/
theorem claim_C2 {mask k w kWidth : Nat} (hm : mask + 1 = 2 ^ k) (hkW : kWidth = 2 ^ w)
    (hWm : kWidth ≤ mask + 1) (hash : Nat) :
    ProbePermutesGroupResidues kWidth hash mask := by
  subst hkW
  have hwk : w ≤ k := pow_le_pow_exponent (by omega)
  have hN : (mask + 1) / 2 ^ w = 2 ^ (k - w) := by
    rw [hm, Nat.pow_div hwk (by omega)]
  unfold ProbePermutesGroupResidues
  rw [hN]
  refine ⟨?_, ?_, ?_, ?_⟩
  · intro a b ha hb h
    exact probe_offsets_injOn hm hwk hash ha hb h
  · intro n hn
    exact probe_offsets_mem hm hwk hash n
  · intro j hj
    exact probe_offsets_cover hm hwk hash hj
  · intro a b ha hb hne i j hi hj
    exact probe_windows_disjoint hm hwk hash ha hb hne hi hj

/-- Witness for C2: mask 15, group width 8, seed 5 (two probe steps cycle
through both group-aligned residues). -/
theorem claim_C2_witness : ProbePermutesGroupResidues 8 5 15 :=
  @claim_C2 15 4 3 8 (by decide) (by decide) (by decide) 5

/-- C6: if the control array is entirely Full, the checked build's
defensive `index_ ≤ capacity` bound check fires before any offset is
returned; conversely, when an Empty or Deleted byte is reachable, the
assertion holds at every iteration and the error branch is unreachable:
the checked build returns a found slot. -/
theorem claim_C6 {capacity k w kWidth : Nat} {ctrl : Nat → CWISS_ctrl_t}
    (hcap : capacity + 1 = 2 ^ k) (hkW : kWidth = 2 ^ w) (hWcap : kWidth ≤ capacity + 1)
    (hash : Nat) (backwards : Bool) :
    ((∀ p, CWISS_IsEmptyOrDeleted (ctrl p) = false) →
      CWISS_find_first_non_full_dbg kWidth ctrl hash capacity backwards
        (capacity / kWidth + 1) = some CWISS_FindResult.fullTableCheckFailed) ∧
    ((MirroredTail ctrl capacity kWidth ∧
        ∃ q, q ≤ capacity ∧ CWISS_IsEmptyOrDeleted (ctrl q) = true) →
      DbgFindsSlot kWidth ctrl hash capacity backwards (capacity / kWidth + 1)) := by
  subst hkW
  have hwk : w ≤ k := pow_le_pow_exponent (by omega)
  have hWpos : 0 < (2 : Nat) ^ w := Nat.pos_pow_of_pos w (by omega)
  have hN : capacity / 2 ^ w + 1 = 2 ^ (k - w) := cap_div_width hcap hwk
  have hWN : (2 : Nat) ^ w * 2 ^ (k - w) = 2 ^ k := by
    rw [← pow_add]; congr 1; omega
  constructor
  · intro hfull
    exact dbg_loop_full hWpos hfull hash capacity backwards (capacity / 2 ^ w + 1) 0
      (by omega) (Nat.zero_le _)
  · rintro ⟨hmt, q, hq, hE⟩
    obtain ⟨n1, hn1, hmatch1⟩ := exists_match_step hcap hwk hmt hash hq hE
    have hex : ∃ n, matchesAt (2 ^ w) ctrl hash capacity n := ⟨n1, hmatch1⟩
    have hnN : Nat.find hex < 2 ^ (k - w) :=
      Nat.lt_of_le_of_lt (Nat.find_min' hex hmatch1) hn1
    have hidx : Nat.find hex * 2 ^ w ≤ capacity := by
      have h1 : Nat.find hex * 2 ^ w ≤ (2 ^ (k - w) - 1) * 2 ^ w :=
        Nat.mul_le_mul_right _ (by omega)
      have h2 : (2 ^ (k - w) - 1) * 2 ^ w = 2 ^ w * 2 ^ (k - w) - 2 ^ w := by
        rw [Nat.sub_mul, Nat.one_mul, Nat.mul_comm]
      omega
    have hdbg := dbg_loop_reaches ctrl hash capacity backwards 0 (Nat.find hex)
      (2 ^ (k - w))
      (fun j hj => by rw [Nat.zero_add]; exact Nat.find_min hex hj)
      (by rw [Nat.zero_add]; exact Nat.find_spec hex)
      (by omega) (by rw [Nat.zero_add]; exact hidx)
    simp only [Nat.zero_add] at hdbg
    unfold DbgFindsSlot CWISS_find_first_non_full_dbg
    rw [hN]
    exact ⟨_, hdbg⟩

/-- Witness for C6: the entirely Full array with capacity 7, width 8,
seed 0 makes the checked build report the failed bound check. -/
theorem claim_C6_witness :
    CWISS_find_first_non_full_dbg 8 ctrlFull 0 7 false (7 / 8 + 1) =
      some CWISS_FindResult.fullTableCheckFailed :=
  (@claim_C6 7 3 3 8 ctrlFull (by decide) (by decide) (by decide) 0 false).1
    (fun _ => rfl)

/-- C7: whenever the debug-only exploration policy does not apply, the
offset returned corresponds to the lowest set bit of the first probed group
with a non-empty empty-or-deleted mask — identical to a plain left-to-right
scan of that group — and the checked build with the policy off returns
exactly the release result, so the backward path is absent from release
behavior. -/
theorem claim_C7 {capacity k w kWidth : Nat} {ctrl : Nat → CWISS_ctrl_t}
    (hcap : capacity + 1 = 2 ^ k) (hkW : kWidth = 2 ^ w) (hWcap : kWidth ≤ capacity + 1)
    (hmt : MirroredTail ctrl capacity kWidth) (hash : Nat)
    (hpre : ∃ q, q ≤ capacity ∧ CWISS_IsEmptyOrDeleted (ctrl q) = true) :
    ReleaseMatchesDebugForward kWidth ctrl hash capacity ((capacity + 1) / kWidth) := by
  subst hkW
  have hwk : w ≤ k := pow_le_pow_exponent (by omega)
  have hWpos : 0 < (2 : Nat) ^ w := Nat.pos_pow_of_pos w (by omega)
  have hfuel : (capacity + 1) / 2 ^ w = 2 ^ (k - w) := by
    rw [hcap, Nat.pow_div hwk (by omega)]
  have hWN : (2 : Nat) ^ w * 2 ^ (k - w) = 2 ^ k := by
    rw [← pow_add]; congr 1; omega
  unfold ReleaseMatchesDebugForward
  rw [hfuel]
  obtain ⟨n, hnN, hno, hma, heq⟩ := find_main hcap hwk hmt hash hpre
  have hidx : n * 2 ^ w ≤ capacity := by
    have h1 : n * 2 ^ w ≤ (2 ^ (k - w) - 1) * 2 ^ w :=
      Nat.mul_le_mul_right _ (by omega)
    have h2 : (2 ^ (k - w) - 1) * 2 ^ w = 2 ^ w * 2 ^ (k - w) - 2 ^ w := by
      rw [Nat.sub_mul, Nat.one_mul, Nat.mul_comm]
    omega
  have hdbg := dbg_loop_reaches ctrl hash capacity false 0 n (2 ^ (k - w))
    (fun j hj => by rw [Nat.zero_add]; exact hno j hj)
    (by rw [Nat.zero_add]; exact hma)
    (by omega) (by rw [Nat.zero_add]; exact hidx)
  rw [Nat.zero_add, if_neg Bool.false_ne_true] at hdbg
  refine ⟨_, n, heq, hdbg, hno, hma, ?_⟩
  show CWISS_probe_seq_offset (probeSeqAt (2 ^ w) hash capacity n)
      (CWISS_BitMask_TrailingZeros (2 ^ w) (groupMaskAt (2 ^ w) ctrl hash capacity n)) = _
  unfold groupMaskAt
  rw [trailingZeros_matchEOD_eq_scan]

/-- Witness for C7 at the §8 scenario. -/
theorem claim_C7_witness :
    ReleaseMatchesDebugForward 8 ctrlC9 0 7 ((7 + 1) / 8) :=
  @claim_C7 7 3 3 8 ctrlC9 (by decide) (by decide) (by decide)
    (by unfold MirroredTail; decide) 0 ⟨2, by decide, by decide⟩

/-- C8: every returned `probe_length` equals the sequence's `index_` at the
matching step, which is `kWidth` times the number of groups scanned before
the match; it is always an exact multiple of `kWidth`, and is zero exactly
when the very first probed group contains an Empty or Deleted byte. -/
theorem claim_C8 {capacity k w kWidth : Nat} {ctrl : Nat → CWISS_ctrl_t}
    (hcap : capacity + 1 = 2 ^ k) (hkW : kWidth = 2 ^ w) (hWcap : kWidth ≤ capacity + 1)
    (hmt : MirroredTail ctrl capacity kWidth) (hash : Nat)
    (hpre : ∃ q, q ≤ capacity ∧ CWISS_IsEmptyOrDeleted (ctrl q) = true) :
    ProbeLengthIsGroupMultiple kWidth ctrl hash capacity ((capacity + 1) / kWidth) := by
  subst hkW
  have hwk : w ≤ k := pow_le_pow_exponent (by omega)
  have hWpos : 0 < (2 : Nat) ^ w := Nat.pos_pow_of_pos w (by omega)
  have hfuel : (capacity + 1) / 2 ^ w = 2 ^ (k - w) := by
    rw [hcap, Nat.pow_div hwk (by omega)]
  unfold ProbeLengthIsGroupMultiple
  rw [hfuel]
  obtain ⟨n, hnN, hno, hma, heq⟩ := find_main hcap hwk hmt hash hpre
  refine ⟨_, n, heq, hno, hma, ?_, ?_, ?_, ?_⟩
  · show n * 2 ^ w = (probeSeqAt (2 ^ w) hash capacity n).index_
    rw [probeSeqAt_index]
  · show n * 2 ^ w = n * 2 ^ w
    rfl
  · show 2 ^ w ∣ n * 2 ^ w
    exact Dvd.intro_left n rfl
  · show n * 2 ^ w = 0 ↔ matchesAt (2 ^ w) ctrl hash capacity 0
    constructor
    · intro h0
      have hn0 : n = 0 := by
        rcases Nat.mul_eq_zero.mp h0 with h | h
        · exact h
        · omega
      rw [← hn0]
      exact hma
    · intro hm0
      have hn0 : n = 0 := by
        by_contra hnz
        exact hno 0 (by omega) hm0
      rw [hn0, Nat.zero_mul]

/-- Witness for C8 at the §8 scenario. -/
theorem claim_C8_witness :
    ProbeLengthIsGroupMultiple 8 ctrlC9 0 7 ((7 + 1) / 8) :=
  @claim_C8 7 3 3 8 ctrlC9 (by decide) (by decide) (by decide)
    (by unfold MirroredTail; decide) 0 ⟨2, by decide, by decide⟩

end Cwisstable
